import Mathlib

/-!
Verification of the antimeridian polygon-splitting pipeline
(`split_polygons.py`): crossing detection, per-ring longitude unwrapping,
shell/hole alignment, meridian selection, splitting, range re-wrapping and
the footprint-minimizing heuristic.

Coordinates are modelled as rational pairs (longitude, latitude).  Fallible
code (Python raises) is modelled with `Except`: `Err.invalidLongitude` is the
`ValueError` of `check_crossing`, `Err.unsupportedTopology` the
`NotImplementedError` of `split_polygon`, and `Err.pythonCrash` stands for an
unhandled runtime error of the reference (comparison with `None`, unpacking
the empty bounds of an empty geometry, and the dispatcher's use of an
uninitialized variable).  `Err.invalidInput` is the explicit input error the
design demands at the dispatcher; the reference never produces it.
-/

deriving instance DecidableEq for Except

unseal Rat.add Rat.mul Rat.sub Rat.inv

set_option maxRecDepth 8000

namespace SplitPolygons

/-- Failure conditions of the pipeline. -/
inductive Err where
  | invalidLongitude
  | unsupportedTopology
  | invalidInput
  | pythonCrash
  deriving DecidableEq, Repr

/-- A coordinate: (longitude, latitude) in degrees. -/
abbrev Coord := ℚ × ℚ

/-- A ring: ordered coordinate sequence; shapely stores rings closed
(first equals last). -/
abbrev LinearRing := List Coord

/-- A polygon: one shell ring plus hole rings, as shapely represents it. -/
structure SPolygon where
  shell : LinearRing
  holes : List LinearRing
  deriving DecidableEq, Repr

/-- A multipolygon: ordered sequence of polygons. -/
abbrev SMultiPolygon := List SPolygon

/-- `check_crossing` (source lines 8-17): raises when `validate` is set and a
longitude magnitude exceeds 180, else reports whether the absolute longitude
difference exceeds the threshold. -/
def check_crossing (lon1 lon2 : ℚ) (validate : Bool) (dlon_threshold : ℚ) :
    Except Err Bool :=
  if validate = true ∧ (180 < |lon1| ∨ 180 < |lon2|) then
    .error .invalidLongitude
  else
    .ok (decide (dlon_threshold < |lon2 - lon1|))

/-- The inner loop of `split_polygon` over `ring[1:]` (source lines 81-90):
each vertex is compared against the possibly already shifted previous vertex;
a detected crossing replaces the longitude by `lon - copysign(1, lon-prev)*360`;
running min/max over the shifted values and the crossing count are tracked. -/
def unwrapFrom (validate : Bool) (prev ringMin ringMax : ℚ) (crossings : Nat) :
    List Coord → Except Err (List Coord × ℚ × ℚ × Nat)
  | [] => .ok ([], ringMin, ringMax, crossings)
  | (lon, lat) :: rest =>
    Except.bind (check_crossing lon prev validate 180) fun cross =>
      let lonNew := if cross then (if 0 ≤ lon - prev then lon - 360 else lon + 360) else lon
      let crossings1 := if cross then crossings + 1 else crossings
      let ringMin1 := if lonNew < ringMin then lonNew else ringMin
      let ringMax1 := if ringMax < lonNew then lonNew else ringMax
      Except.bind (unwrapFrom validate lonNew ringMin1 ringMax1 crossings1 rest) fun out =>
        .ok ((lonNew, lat) :: out.1, out.2.1, out.2.2.1, out.2.2.2)

/-- Normalize one nonempty ring: bounds start at the first vertex
(source line 78), which is never shifted. -/
def normalizeRing (validate : Bool) : LinearRing → Except Err (LinearRing × ℚ × ℚ × Nat)
  | [] => .ok ([], 0, 0, 0)
  | (x0, y0) :: rest =>
    Except.bind (unwrapFrom validate x0 x0 x0 0 rest) fun out =>
      .ok ((x0, y0) :: out.1, out.2.1, out.2.2.1, out.2.2.2)

/-- Horizontal shift of a ring (`affinity.translate` restricted to x). -/
def ringShift (xoff : ℚ) (r : LinearRing) : LinearRing :=
  r.map (fun c => (c.1 + xoff, c.2))

/-- Hole-to-shell alignment (source lines 95-102): a hole whose min is below
the shell minimum moves up by 360, else one whose max is above the shell
maximum moves down by 360; bounds move with it. -/
def alignRing (shellMin shellMax ringMin ringMax : ℚ) (r : LinearRing) :
    LinearRing × ℚ × ℚ :=
  if ringMin < shellMin then (ringShift 360 r, ringMin + 360, ringMax + 360)
  else if shellMax < ringMax then (ringShift (-360) r, ringMin - 360, ringMax - 360)
  else (r, ringMin, ringMax)

/-- The ring loop of `split_polygon` (source lines 74-108): empty rings are
skipped; ring index 0 sets the shell bounds; later rings are aligned against
them (`None` bounds make the Python comparison crash); rings with crossings
mark -180 (aligned min below -180) and +180 (aligned max above 180).
Returns the shifted rings, the shell bounds and the two marks. -/
def processRingsAux (validate : Bool) :
    List LinearRing → Bool → Option (ℚ × ℚ) → Bool → Bool →
    Except Err (List LinearRing × Option (ℚ × ℚ) × Bool × Bool)
  | [], _, sb, mNeg, mPos => .ok ([], sb, mNeg, mPos)
  | r :: rest, first, sb, mNeg, mPos =>
    if r.isEmpty then
      Except.bind (processRingsAux validate rest false sb mNeg mPos) fun out =>
        .ok (r :: out.1, out.2)
    else
      Except.bind (normalizeRing validate r) fun nr =>
        Except.bind
          (if first then
            .ok (nr.1, nr.2.1, nr.2.2.1, some (nr.2.1, nr.2.2.1))
          else
            match sb with
            | none => .error .pythonCrash
            | some (smin, smax) =>
              let al := alignRing smin smax nr.2.1 nr.2.2.1 nr.1
              .ok (al.1, al.2.1, al.2.2, sb) :
            Except Err (LinearRing × ℚ × ℚ × Option (ℚ × ℚ))) fun al =>
          Except.bind
            (processRingsAux validate rest false al.2.2.2
              (mNeg || (decide (0 < nr.2.2.2) && decide (al.2.1 < -180)))
              (mPos || (decide (0 < nr.2.2.2) && decide (180 < al.2.2.1)))) fun out =>
            .ok (al.1 :: out.1, out.2)

/-- Minimum longitude of a ring, as the running-minimum loops of the source
compute it; 0 is a placeholder for the empty ring (the source crashes there,
which callers model separately). -/
def ringMinX : LinearRing → ℚ
  | [] => 0
  | c :: rest => rest.foldl (fun a d => if d.1 < a then d.1 else a) c.1

/-- Maximum longitude of a ring; see `ringMinX`. -/
def ringMaxX : LinearRing → ℚ
  | [] => 0
  | c :: rest => rest.foldl (fun a d => if a < d.1 then d.1 else a) c.1

/-- Horizontal shift of a whole polygon (`affinity.translate`). -/
def polyShift (xoff : ℚ) (p : SPolygon) : SPolygon :=
  ⟨ringShift xoff p.shell, p.holes.map (ringShift xoff)⟩

/-- `translate_polygons` (source lines 20-32): each fragment whose bounds
fall below -180 moves up by 360, one whose bounds exceed 180 moves down by
360.  A polygon's bounds are its shell envelope (GEOS); an empty fragment
makes the source crash unpacking the empty bounds tuple. -/
def translate_polygon (p : SPolygon) : Except Err SPolygon :=
  if p.shell.isEmpty then .error .pythonCrash
  else if ringMinX p.shell < -180 then .ok (polyShift 360 p)
  else if 180 < ringMaxX p.shell then .ok (polyShift (-360) p)
  else .ok p

/-- The loop of `translate_polygons` over the fragments of a collection. -/
def translate_polygons : SMultiPolygon → Except Err SMultiPolygon
  | [] => .ok []
  | p :: rest =>
    Except.bind (translate_polygon p) fun q =>
      Except.bind (translate_polygons rest) fun qs => .ok (q :: qs)

/-- Intersection of the segment from `a` to `b` with the vertical line `x = m`. -/
def interpolateAt (m : ℚ) (a b : Coord) : Coord :=
  (m, a.2 + (b.2 - a.2) * (m - a.1) / (b.1 - a.1))

/-- One Sutherland-Hodgman pass over the edges of a closed ring. -/
def clipEdges (inside : Coord → Bool) (m : ℚ) : List (Coord × Coord) → List Coord
  | [] => []
  | (a, b) :: rest =>
    let keep :=
      if inside b then
        if inside a then [b] else [interpolateAt m a b, b]
      else
        if inside a then [interpolateAt m a b] else []
    keep ++ clipEdges inside m rest

/-- Close a ring by repeating its first vertex when needed. -/
def closeRing (r : LinearRing) : LinearRing :=
  match r with
  | [] => []
  | c :: _ =>
    match r.getLast? with
    | some d => if d = c then r else r ++ [c]
    | none => r

/-- Clip a closed ring to one side of the vertical line `x = m`. -/
def clipRing (inside : Coord → Bool) (m : ℚ) (r : LinearRing) : LinearRing :=
  match r with
  | [] => []
  | _ :: rest => closeRing (clipEdges inside m (r.zip rest))

/-- Modelled from the spec: the external geometry engine's boolean
split-by-line primitive (design 4.5, an out-of-scope collaborator), applied
to the vertical meridian segment of `split_polygon`.  A line that does not
reach the polygon's interior returns the input unchanged; otherwise the two
half-plane clips at the meridian are the fragments, interiors disjoint except
on the line and union reconstructing the input. -/
def opsSplit (p : SPolygon) (m : ℚ) : SMultiPolygon :=
  if p.shell.all (fun c => decide (c.1 ≤ m)) || p.shell.all (fun c => decide (m ≤ c.1)) then
    [p]
  else
    let leftP : SPolygon :=
      ⟨clipRing (fun c => decide (c.1 ≤ m)) m p.shell,
       (p.holes.map (clipRing (fun c => decide (c.1 ≤ m)) m)).filter (fun r => !r.isEmpty)⟩
    let rightP : SPolygon :=
      ⟨clipRing (fun c => decide (m ≤ c.1)) m p.shell,
       (p.holes.map (clipRing (fun c => decide (m ≤ c.1)) m)).filter (fun r => !r.isEmpty)⟩
    [leftP, rightP]

/-- `split_polygon` (source lines 35-129): unwrap and align the rings, select
the split meridians; two marks raise, one mark splits the shifted polygon at
that meridian, no mark keeps the original coordinates; fragments are then
re-wrapped into range by `translate_polygons`. -/
def split_polygon (p : SPolygon) (validate : Bool) : Except Err SMultiPolygon :=
  Except.bind (processRingsAux validate (p.shell :: p.holes) true none false false) fun res =>
    if res.2.2.1 && res.2.2.2 then
      .error .unsupportedTopology
    else if res.2.2.1 || res.2.2.2 then
      let splitLon : ℚ := if res.2.2.1 then -180 else 180
      translate_polygons (opsSplit ⟨res.1.headD [], res.1.tail⟩ splitLon)
    else
      translate_polygons [⟨p.shell, p.holes⟩]

/-- `split_multipolygon` (source lines 132-140): split each member with the
default `validate = False` and concatenate the fragments in encounter order. -/
def split_multipolygon : SMultiPolygon → Except Err SMultiPolygon
  | [] => .ok []
  | p :: rest =>
    Except.bind (split_polygon p false) fun r =>
      Except.bind (split_multipolygon rest) fun rs => .ok (r ++ rs)

/-- Minimum longitude over a collection (its GEOS envelope: the union of the
member shell envelopes); 0 is a placeholder for the empty collection. -/
def collMinX : SMultiPolygon → ℚ
  | [] => 0
  | p :: rest =>
    rest.foldl (fun a q => if ringMinX q.shell < a then ringMinX q.shell else a)
      (ringMinX p.shell)

/-- Maximum longitude over a collection; see `collMinX`. -/
def collMaxX : SMultiPolygon → ℚ
  | [] => 0
  | p :: rest =>
    rest.foldl (fun a q => if a < ringMaxX q.shell then ringMaxX q.shell else a)
      (ringMaxX p.shell)

/-- `wrap_polygons` (source lines 143-169): build the one candidate that
shifts every fragment with negative minimum longitude up by 360, and keep it
exactly when its bounding-box width is strictly smaller.  The bounds of an
empty collection (or of an empty member) crash the source. -/
def wrap_polygons (gc : SMultiPolygon) (verbose : Bool) : Except Err SMultiPolygon :=
  if gc.isEmpty || gc.any (fun p => p.shell.isEmpty) then
    .error .pythonCrash
  else
    let initialDifference := collMaxX gc - collMinX gc
    let transformed := gc.map (fun p => if ringMinX p.shell < 0 then polyShift 360 p else p)
    let transformedDifference := collMaxX transformed - collMinX transformed
    if transformedDifference < initialDifference then .ok transformed else .ok gc

/-- A top-level input as the dispatcher inspects it by runtime type. -/
inductive Geometry where
  | poly (p : SPolygon)
  | multi (mp : SMultiPolygon)
  | other
  deriving DecidableEq, Repr

/-- `splitter` (source lines 171-180): dispatch on the runtime type, split,
then always apply `wrap_polygons`.  Any other tag leaves `_split` unassigned
and the reference crashes with an uninitialized-variable error. -/
def splitter (geometry_collection : Geometry) (verbose : Bool) :
    Except Err SMultiPolygon :=
  match geometry_collection with
  | .multi mp =>
    Except.bind (split_multipolygon mp) fun s => wrap_polygons s verbose
  | .poly p =>
    Except.bind (split_polygon p false) fun s => wrap_polygons s verbose
  | .other => .error .pythonCrash

/-- Twice the signed area accumulated over consecutive vertices of a closed
ring (the shoelace sum). -/
def shoelace : LinearRing → ℚ
  | [] => 0
  | [_] => 0
  | a :: b :: rest => (a.1 * b.2 - b.1 * a.2) + shoelace (b :: rest)

/-- Planar area enclosed by a closed ring. -/
def ringArea (r : LinearRing) : ℚ := |shoelace r| / 2

/-- Planar area of a polygon: shell area minus hole areas. -/
def polyArea (p : SPolygon) : ℚ := ringArea p.shell - (p.holes.map ringArea).sum

/-- All consecutive longitude steps from `prev` on stay within 180. -/
def smallStepsB (prev : ℚ) : List Coord → Bool
  | [] => true
  | c :: rest => decide (|c.1 - prev| ≤ 180) && smallStepsB c.1 rest

/-- No pair of consecutive vertices of the ring differs in longitude by more
than 180. -/
def smallRingB : LinearRing → Bool
  | [] => true
  | c :: rest => smallStepsB c.1 rest

/-- Every longitude of the ring lies within [-180, 180]. -/
def inRangeRingB (r : LinearRing) : Bool := r.all (fun c => decide (|c.1| ≤ 180))

/-- Every ring of the polygon has small consecutive steps. -/
def smallPolyB (p : SPolygon) : Bool := (p.shell :: p.holes).all smallRingB

/-- Every coordinate of the polygon lies within [-180, 180]. -/
def inRangePolyB (p : SPolygon) : Bool := (p.shell :: p.holes).all inRangeRingB

/-- A shapely-representable ring: empty, or closed with at least four
vertices. -/
def wfRingB (r : LinearRing) : Bool :=
  r.isEmpty || (decide (4 ≤ r.length) && decide (r.head? = r.getLast?))

/-- A shapely-representable polygon: every ring well formed. -/
def wfPolyB (p : SPolygon) : Bool := (p.shell :: p.holes).all wfRingB

/-- Inversion for exception propagation: a failing bind fails in its first
stage or in its continuation. -/
theorem bind_eq_error {α β : Type} {x : Except Err α} {f : α → Except Err β} {e : Err}
    (h : Except.bind x f = .error e) :
    x = .error e ∨ ∃ a, x = .ok a ∧ f a = .error e := by
  cases hx : x with
  | error e2 =>
    rw [hx] at h
    have h2 : e2 = e := Except.error.inj h
    subst h2
    exact Or.inl rfl
  | ok a =>
    rw [hx] at h
    exact Or.inr ⟨a, rfl, h⟩

/-- C3: the crossing check fails with InvalidInput exactly when `validate` is
set and a longitude magnitude exceeds 180; otherwise it reports true exactly
when the absolute longitude difference exceeds the threshold; in particular
`check_crossing 200 0` fails under validation and returns true without it. -/
theorem check_crossing_characterization :
    (∀ (lon1 lon2 : ℚ) (validate : Bool) (t : ℚ),
        (check_crossing lon1 lon2 validate t = .error .invalidLongitude ↔
          validate = true ∧ (180 < |lon1| ∨ 180 < |lon2|)) ∧
        (check_crossing lon1 lon2 validate t = .ok true ↔
          ¬(validate = true ∧ (180 < |lon1| ∨ 180 < |lon2|)) ∧ t < |lon2 - lon1|)) ∧
    check_crossing 200 0 true 180 = .error .invalidLongitude ∧
    check_crossing 200 0 false 180 = .ok true := by
  refine ⟨fun lon1 lon2 validate t => ?_, by decide, by decide⟩
  unfold check_crossing
  split_ifs with h
  · simp [h]
  · simp [h]

/-- C1: the ring [[179,0],[-179,0],[-179,1],[179,1],[179,0]] splits into
exactly two fragments, one spanning longitude 179 to 180 and the other -180
to -179, whose planar areas sum to the 2 square degrees of the unwrapped
(unsplit) ring the split operates on. -/
theorem concrete_antimeridian_split :
    split_polygon ⟨[(179, 0), (-179, 0), (-179, 1), (179, 1), (179, 0)], []⟩ false =
      .ok [⟨[(180, 0), (180, 1), (179, 1), (179, 0), (180, 0)], []⟩,
           ⟨[(-180, 0), (-179, 0), (-179, 1), (-180, 1), (-180, 0)], []⟩] ∧
    ringMinX [(180, 0), (180, 1), (179, 1), (179, 0), (180, 0)] = 179 ∧
    ringMaxX [(180, 0), (180, 1), (179, 1), (179, 0), (180, 0)] = 180 ∧
    ringMinX [(-180, 0), (-179, 0), (-179, 1), (-180, 1), (-180, 0)] = -180 ∧
    ringMaxX [(-180, 0), (-179, 0), (-179, 1), (-180, 1), (-180, 0)] = -179 ∧
    processRingsAux false [[(179, 0), (-179, 0), (-179, 1), (179, 1), (179, 0)]]
        true none false false =
      .ok ([[(179, 0), (181, 0), (181, 1), (179, 1), (179, 0)]],
           some (179, 181), false, true) ∧
    polyArea ⟨[(180, 0), (180, 1), (179, 1), (179, 0), (180, 0)], []⟩ +
        polyArea ⟨[(-180, 0), (-179, 0), (-179, 1), (-180, 1), (-180, 0)], []⟩ =
      polyArea ⟨[(179, 0), (181, 0), (181, 1), (179, 1), (179, 0)], []⟩ ∧
    polyArea ⟨[(179, 0), (181, 0), (181, 1), (179, 1), (179, 0)], []⟩ = 2 := by
  refine ⟨?_, ?_, ?_, ?_, ?_, ?_, ?_, ?_⟩ <;> decide

/-- C2: whenever the ring loop marks both -180 and +180 as required split
meridians, `split_polygon` fails with the unsupported-topology error and
yields no fragments. -/
theorem both_marks_unsupported (p : SPolygon) (validate : Bool)
    (rs : List LinearRing) (sb : Option (ℚ × ℚ))
    (h : processRingsAux validate (p.shell :: p.holes) true none false false =
      .ok (rs, sb, true, true)) :
    split_polygon p validate = .error .unsupportedTopology := by
  unfold split_polygon
  rw [h]
  rfl

/-- Witness for C2: a polygon whose shell spans wide without crossings while
one hole unwraps past +180 and another past -180, so both meridians are
marked and the split fails. -/
theorem both_marks_unsupported_witness :
    split_polygon
      ⟨[(-186, -20), (-56, -20), (74, -20), (186, -20), (186, 20), (74, 20),
        (-56, 20), (-186, 20), (-186, -20)],
       [[(10, 0), (-175, 0), (-175, 5), (10, 5), (10, 0)],
        [(-10, 0), (175, 0), (175, 5), (-10, 5), (-10, 0)]]⟩ false =
      .error .unsupportedTopology :=
  both_marks_unsupported _ false
    [[(-186, -20), (-56, -20), (74, -20), (186, -20), (186, 20), (74, 20),
      (-56, 20), (-186, 20), (-186, -20)],
     [(10, 0), (185, 0), (185, 5), (10, 5), (10, 0)],
     [(-10, 0), (-185, 0), (-185, 5), (-10, 5), (-10, 0)]]
    (some (-186, 186)) (by decide)

/-! ### Folded bounds -/

theorem foldl_min_le_init (l : List Coord) : ∀ a : ℚ,
    l.foldl (fun a c => if c.1 < a then c.1 else a) a ≤ a := by
  induction l with
  | nil => intro a; simp [List.foldl]
  | cons c l ih =>
    intro a
    rw [List.foldl_cons]
    rcases le_or_lt a c.1 with h | h
    · rw [if_neg (not_lt.mpr h)]; exact ih a
    · rw [if_pos h]; exact le_trans (ih c.1) (le_of_lt h)

theorem init_le_foldl_max (l : List Coord) : ∀ a : ℚ,
    a ≤ l.foldl (fun a c => if a < c.1 then c.1 else a) a := by
  induction l with
  | nil => intro a; simp [List.foldl]
  | cons c l ih =>
    intro a
    rw [List.foldl_cons]
    rcases le_or_lt c.1 a with h | h
    · rw [if_neg (not_lt.mpr h)]; exact ih a
    · rw [if_pos h]; exact le_trans (le_of_lt h) (ih c.1)

theorem foldl_min_ge (l : List Coord) : ∀ a b : ℚ, b ≤ a → (∀ c ∈ l, b ≤ c.1) →
    b ≤ l.foldl (fun a c => if c.1 < a then c.1 else a) a := by
  induction l with
  | nil => intro a b h _; simpa using h
  | cons c l ih =>
    intro a b h hall
    rw [List.foldl_cons]
    have hc : b ≤ c.1 := hall c (List.mem_cons_self c l)
    have hrest : ∀ d ∈ l, b ≤ d.1 := fun d hd => hall d (List.mem_cons_of_mem c hd)
    by_cases hlt : c.1 < a
    · rw [if_pos hlt]; exact ih c.1 b hc hrest
    · rw [if_neg hlt]; exact ih a b h hrest

theorem foldl_max_le (l : List Coord) : ∀ a b : ℚ, a ≤ b → (∀ c ∈ l, c.1 ≤ b) →
    l.foldl (fun a c => if a < c.1 then c.1 else a) a ≤ b := by
  induction l with
  | nil => intro a b h _; simpa using h
  | cons c l ih =>
    intro a b h hall
    rw [List.foldl_cons]
    have hc : c.1 ≤ b := hall c (List.mem_cons_self c l)
    have hrest : ∀ d ∈ l, d.1 ≤ b := fun d hd => hall d (List.mem_cons_of_mem c hd)
    by_cases hlt : a < c.1
    · rw [if_pos hlt]; exact ih c.1 b hc hrest
    · rw [if_neg hlt]; exact ih a b h hrest

theorem ringMinX_le_ringMaxX (r : LinearRing) (h : r ≠ []) : ringMinX r ≤ ringMaxX r := by
  match r, h with
  | c :: rest, _ =>
    exact le_trans (foldl_min_le_init rest c.1) (init_le_foldl_max rest c.1)

theorem inRange_bounds (r : LinearRing) (h : inRangeRingB r = true) :
    -180 ≤ ringMinX r ∧ ringMaxX r ≤ 180 := by
  match r with
  | [] => exact ⟨by norm_num [ringMinX], by norm_num [ringMaxX]⟩
  | c :: rest =>
    rw [inRangeRingB, List.all_cons, Bool.and_eq_true, decide_eq_true_eq] at h
    have hall : ∀ d ∈ rest, |d.1| ≤ 180 := by
      intro d hd
      have := h.2
      rw [List.all_eq_true] at this
      simpa using this d hd
    constructor
    · exact foldl_min_ge rest c.1 (-180) (neg_le_of_abs_le h.1)
        (fun d hd => neg_le_of_abs_le (hall d hd))
    · exact foldl_max_le rest c.1 180 (le_of_abs_le h.1)
        (fun d hd => le_of_abs_le (hall d hd))

/-! ### The identity of the unwrap loop on rings without crossings -/

theorem check_crossing_small (lon prev : ℚ) (v : Bool)
    (h : |lon - prev| ≤ 180)
    (hv : v = true → |lon| ≤ 180 ∧ |prev| ≤ 180) :
    check_crossing lon prev v 180 = .ok false := by
  have habs : ¬(180 < |prev - lon|) := by rw [abs_sub_comm]; exact not_lt.mpr h
  have hc : ¬(v = true ∧ (180 < |lon| ∨ 180 < |prev|)) := by
    rintro ⟨hvt, h3 | h3⟩ <;> rcases hv hvt with ⟨h1, h2⟩ <;> linarith
  unfold check_crossing
  rw [if_neg hc]
  simp [habs]

theorem unwrapFrom_small (v : Bool) (rest : List Coord) :
    ∀ (prev mn mx : ℚ) (cr : Nat),
      smallStepsB prev rest = true →
      (v = true → |prev| ≤ 180 ∧ inRangeRingB rest = true) →
      unwrapFrom v prev mn mx cr rest =
        .ok (rest,
          rest.foldl (fun a c => if c.1 < a then c.1 else a) mn,
          rest.foldl (fun a c => if a < c.1 then c.1 else a) mx, cr) := by
  induction rest with
  | nil => intro prev mn mx cr _ _; rfl
  | cons c rest ih =>
    rintro prev mn mx cr hs hv
    obtain ⟨lon, lat⟩ := c
    rw [smallStepsB, Bool.and_eq_true, decide_eq_true_eq] at hs
    have hv1 : v = true → |lon| ≤ 180 ∧ inRangeRingB rest = true := by
      intro hvt
      rcases hv hvt with ⟨hp, hr⟩
      rw [inRangeRingB, List.all_cons, Bool.and_eq_true, decide_eq_true_eq] at hr
      exact ⟨hr.1, by rw [inRangeRingB]; exact hr.2⟩
    have hcc : check_crossing lon prev v 180 = .ok false :=
      check_crossing_small lon prev v hs.1
        (fun hvt => ⟨(hv1 hvt).1, (hv hvt).1⟩)
    have hrec := ih lon (if lon < mn then lon else mn) (if mx < lon then lon else mx)
      cr hs.2 (fun hvt => ⟨(hv1 hvt).1, (hv1 hvt).2⟩)
    simp only [unwrapFrom]
    rw [hcc]
    simp only [Except.bind, Bool.false_eq_true, reduceIte]
    rw [hrec]
    rfl

theorem normalizeRing_small (v : Bool) (r : LinearRing)
    (hs : smallRingB r = true)
    (hv : v = true → inRangeRingB r = true) :
    normalizeRing v r = .ok (r, ringMinX r, ringMaxX r, 0) := by
  match r with
  | [] => rfl
  | (x0, y0) :: rest =>
    rw [smallRingB] at hs
    have hv1 : v = true → |x0| ≤ 180 ∧ inRangeRingB rest = true := by
      intro hvt
      have := hv hvt
      rw [inRangeRingB, List.all_cons, Bool.and_eq_true, decide_eq_true_eq] at this
      exact ⟨this.1, by rw [inRangeRingB]; exact this.2⟩
    have h := unwrapFrom_small v rest x0 x0 x0 0 hs hv1
    simp only [normalizeRing]
    rw [h]
    rfl

theorem processRingsAux_small (v : Bool) (rings : List LinearRing) :
    ∀ (sb : ℚ × ℚ) (mNeg mPos : Bool),
      (∀ r ∈ rings, smallRingB r = true) →
      (v = true → ∀ r ∈ rings, inRangeRingB r = true) →
      ∃ out, processRingsAux v rings false (some sb) mNeg mPos =
        .ok (out, some sb, mNeg, mPos) := by
  induction rings with
  | nil => intro sb mNeg mPos _ _; exact ⟨[], rfl⟩
  | cons r rest ih =>
    intro sb mNeg mPos hs hv
    have hsr := hs r (List.mem_cons_self r rest)
    have hsrest : ∀ q ∈ rest, smallRingB q = true :=
      fun q hq => hs q (List.mem_cons_of_mem r hq)
    have hvrest : v = true → ∀ q ∈ rest, inRangeRingB q = true :=
      fun hvt q hq => hv hvt q (List.mem_cons_of_mem r hq)
    obtain ⟨out, hout⟩ := ih sb mNeg mPos hsrest hvrest
    by_cases hre : r.isEmpty
    · refine ⟨r :: out, ?_⟩
      unfold processRingsAux
      rw [if_pos hre, hout]
      rfl
    · have hnr := normalizeRing_small v r hsr
        (fun hvt => hv hvt r (List.mem_cons_self r rest))
      refine ⟨(alignRing sb.1 sb.2 (ringMinX r) (ringMaxX r) r).1 :: out, ?_⟩
      unfold processRingsAux
      rw [if_neg hre, hnr]
      simp only [Except.bind, Bool.false_eq_true, reduceIte, decide_eq_true_eq,
        Nat.lt_irrefl, decide_False, Bool.false_and, Bool.or_false, Bool.and_false]
      rw [hout]

theorem processRingsAux_shell_small (v : Bool) (p : SPolygon)
    (hsh : p.shell ≠ [])
    (hs : smallPolyB p = true)
    (hv : v = true → inRangePolyB p = true) :
    ∃ out, processRingsAux v (p.shell :: p.holes) true none false false =
      .ok (out, some (ringMinX p.shell, ringMaxX p.shell), false, false) := by
  rw [smallPolyB, List.all_cons, Bool.and_eq_true] at hs
  have hv1 : v = true → inRangeRingB p.shell = true ∧
      ∀ q ∈ p.holes, inRangeRingB q = true := by
    intro hvt
    have := hv hvt
    rw [inRangePolyB, List.all_cons, Bool.and_eq_true, List.all_eq_true] at this
    exact this
  have hnr := normalizeRing_small v p.shell hs.1 (fun hvt => (hv1 hvt).1)
  have hrest : ∀ q ∈ p.holes, smallRingB q = true := by
    have := hs.2
    rw [List.all_eq_true] at this
    exact this
  obtain ⟨out, hout⟩ := processRingsAux_small v p.holes
    (ringMinX p.shell, ringMaxX p.shell) false false hrest (fun hvt => (hv1 hvt).2)
  refine ⟨p.shell :: out, ?_⟩
  unfold processRingsAux
  rw [if_neg (by simp [List.isEmpty_eq_true, hsh]), hnr]
  simp only [Except.bind, reduceIte, decide_eq_true_eq, Nat.lt_irrefl, decide_False,
    Bool.false_and, Bool.or_false, Bool.and_false]
  rw [hout]

/-! ### Pass-through of the splitter on polygons without marks -/

theorem translate_polygon_id (p : SPolygon) (hsh : p.shell ≠ [])
    (hmin : -180 ≤ ringMinX p.shell) (hmax : ringMaxX p.shell ≤ 180) :
    translate_polygon p = .ok p := by
  unfold translate_polygon
  rw [if_neg (by simp [List.isEmpty_eq_true, hsh]),
    if_neg (not_lt.mpr hmin), if_neg (not_lt.mpr hmax)]

theorem translate_polygons_single (p : SPolygon) (hsh : p.shell ≠ [])
    (hmin : -180 ≤ ringMinX p.shell) (hmax : ringMaxX p.shell ≤ 180) :
    translate_polygons [p] = .ok [p] := by
  unfold translate_polygons
  rw [translate_polygon_id p hsh hmin hmax]
  rfl

/-- No-marks pass-through: when the ring loop selects no split meridian and
the original shell bounds are in range, `split_polygon` rebuilds its single
fragment from the original input coordinates, unchanged. -/
theorem split_polygon_no_marks (p : SPolygon) (v : Bool)
    (rs : List LinearRing) (sb : Option (ℚ × ℚ))
    (hpr : processRingsAux v (p.shell :: p.holes) true none false false =
      .ok (rs, sb, false, false))
    (hsh : p.shell ≠ [])
    (hmin : -180 ≤ ringMinX p.shell) (hmax : ringMaxX p.shell ≤ 180) :
    split_polygon p v = .ok [p] := by
  unfold split_polygon
  rw [hpr]
  simp only [Except.bind, Bool.and_false, Bool.or_false, Bool.false_eq_true, reduceIte]
  exact translate_polygons_single p hsh hmin hmax

/-- Identity of the whole polygon-level split on polygons with small steps
and in-range coordinates. -/
theorem split_polygon_id (p : SPolygon) (v : Bool)
    (hsh : p.shell ≠ [])
    (hs : smallPolyB p = true)
    (hv : v = true → inRangePolyB p = true)
    (hmin : -180 ≤ ringMinX p.shell) (hmax : ringMaxX p.shell ≤ 180) :
    split_polygon p v = .ok [p] := by
  obtain ⟨out, hout⟩ := processRingsAux_shell_small v p hsh hs hv
  exact split_polygon_no_marks p v out
    (some (ringMinX p.shell, ringMaxX p.shell)) hout hsh hmin hmax

/-- C4 (amended with the domain the counterexample forces): for every
well-formed polygon whose coordinates lie within [-180, 180] and whose
consecutive vertices never differ in longitude by more than the threshold,
the split returns exactly one fragment, equal to the input exactly. -/
theorem no_crossing_single_fragment (p : SPolygon) (v : Bool)
    (hsh : p.shell ≠ []) (hwf : wfPolyB p = true)
    (hs : smallPolyB p = true) (hr : inRangePolyB p = true) :
    split_polygon p v = .ok [p] := by
  have hsr : inRangeRingB p.shell = true := by
    rw [inRangePolyB, List.all_cons, Bool.and_eq_true] at hr
    exact hr.1
  obtain ⟨hmin, hmax⟩ := inRange_bounds p.shell hsr
  exact split_polygon_id p v hsh hs (fun _ => hr) hmin hmax

/-- Witness for C4 at a concrete in-range rectangle, with validation on. -/
theorem no_crossing_single_fragment_witness :
    split_polygon ⟨[(10, 0), (20, 0), (20, 5), (10, 5), (10, 0)], []⟩ true =
      .ok [⟨[(10, 0), (20, 0), (20, 5), (10, 5), (10, 0)], []⟩] :=
  no_crossing_single_fragment _ true (by decide) (by decide) (by decide) (by decide)

/-- Counterexample to C4 as stated: an out-of-range rectangle with tiny
consecutive steps is translated by -360, so its single fragment is not equal
to the input. -/
theorem no_crossing_single_fragment_cex :
    smallPolyB ⟨[(181, 0), (182, 0), (182, 1), (181, 1), (181, 0)], []⟩ = true ∧
    split_polygon ⟨[(181, 0), (182, 0), (182, 1), (181, 1), (181, 0)], []⟩ false =
      .ok [⟨[(-179, 0), (-178, 0), (-178, 1), (-179, 1), (-179, 0)], []⟩] ∧
    decide ((⟨[(-179, 0), (-178, 0), (-178, 1), (-179, 1), (-179, 0)], []⟩ : SPolygon) =
      ⟨[(181, 0), (182, 0), (182, 1), (181, 1), (181, 0)], []⟩) = false :=
  ⟨by decide, by decide, by decide⟩

/-- C10 (amended with the bounds proviso the counterexample forces): when no
split meridian is selected and the input shell bounds lie within [-180, 180],
the single output fragment is assembled from the original input coordinates
and equals the input exactly, even when crossings were detected. -/
theorem no_meridian_uses_original (p : SPolygon) (v : Bool)
    (rs : List LinearRing) (sb : Option (ℚ × ℚ))
    (hpr : processRingsAux v (p.shell :: p.holes) true none false false =
      .ok (rs, sb, false, false))
    (hsh : p.shell ≠ [])
    (hmin : -180 ≤ ringMinX p.shell) (hmax : ringMaxX p.shell ≤ 180) :
    split_polygon p v = .ok [p] :=
  split_polygon_no_marks p v rs sb hpr hsh hmin hmax

/-- Witness for C10: a polygon with two detected crossings (via the vertex at
longitude 180) that selects no meridian and is returned exactly as given. -/
theorem no_meridian_uses_original_witness :
    split_polygon ⟨[(-10, 0), (180, 0), (180, 1), (-10, 1), (-10, 0)], []⟩ false =
      .ok [⟨[(-10, 0), (180, 0), (180, 1), (-10, 1), (-10, 0)], []⟩] :=
  no_meridian_uses_original _ false
    [[(-10, 0), (-180, 0), (-180, 1), (-10, 1), (-10, 0)]] (some (-180, -10))
    (by decide) (by decide) (by decide) (by decide)

/-- Counterexample to C10 as stated: an out-of-range polygon selects no
meridian, is rebuilt from the original coordinates, but the re-wrap then
translates it by -360, so the fragment differs from the input. -/
theorem no_meridian_uses_original_cex :
    processRingsAux false
        [[(0, 0), (181, 0), (181, 2), (0, 2), (0, 0)]] true none false false =
      .ok ([[(0, 0), (-179, 0), (-179, 2), (0, 2), (0, 0)]],
        some (-179, 0), false, false) ∧
    split_polygon ⟨[(0, 0), (181, 0), (181, 2), (0, 2), (0, 0)], []⟩ false =
      .ok [⟨[(-360, 0), (-179, 0), (-179, 2), (-360, 2), (-360, 0)], []⟩] ∧
    decide ((⟨[(-360, 0), (-179, 0), (-179, 2), (-360, 2), (-360, 0)], []⟩ : SPolygon) =
      ⟨[(0, 0), (181, 0), (181, 2), (0, 2), (0, 0)], []⟩) = false :=
  ⟨by decide, by decide, by decide⟩

/-! ### The footprint optimizer -/

/-- Modelled from the spec (design 4.8): the one candidate the footprint
optimizer builds, translating every fragment with negative minimum longitude
by +360 and leaving the others untouched. -/
def specFootprintCandidate (gc : SMultiPolygon) : SMultiPolygon :=
  gc.map (fun p => if ringMinX p.shell < 0 then polyShift 360 p else p)

/-- Modelled from the spec (design 4.8): the longitudinal bounding-box width
of a collection, the optimization objective. -/
def specFootprintWidth (gc : SMultiPolygon) : ℚ := collMaxX gc - collMinX gc

/-- C5: on a nonempty collection of nonempty fragments, the footprint
optimizer builds exactly the one candidate that shifts each fragment with
negative minimum longitude by +360, returns it exactly when its width is
strictly below the input width, and otherwise returns the input unchanged. -/
theorem wrap_polygons_characterization (gc : SMultiPolygon) (verbose : Bool)
    (hne : gc ≠ []) (hsh : ∀ p ∈ gc, p.shell ≠ []) :
    wrap_polygons gc verbose =
      .ok (if specFootprintWidth (specFootprintCandidate gc) < specFootprintWidth gc
        then specFootprintCandidate gc else gc) := by
  have hguard : (gc.isEmpty || gc.any (fun p => p.shell.isEmpty)) = false := by
    rw [Bool.or_eq_false_iff]
    constructor
    · rw [List.isEmpty_eq_false]
      exact hne
    · rw [List.any_eq_false]
      intro p hp
      simpa [List.isEmpty_eq_true] using hsh p hp
  unfold wrap_polygons
  rw [hguard]
  simp only [Bool.false_eq_true, reduceIte, specFootprintWidth, specFootprintCandidate]
  split_ifs <;> rfl

/-- Witness for C5: the two-fragment collection with overall box
[-180, 180] from the design notes; the candidate has width 4, so it wins. -/
theorem wrap_polygons_characterization_witness :
    wrap_polygons
      [⟨[(178, 0), (180, 0), (180, 1), (178, 1), (178, 0)], []⟩,
       ⟨[(-180, 0), (-178, 0), (-178, 1), (-180, 1), (-180, 0)], []⟩] false =
      .ok
        (if specFootprintWidth (specFootprintCandidate
              [⟨[(178, 0), (180, 0), (180, 1), (178, 1), (178, 0)], []⟩,
               ⟨[(-180, 0), (-178, 0), (-178, 1), (-180, 1), (-180, 0)], []⟩]) <
            specFootprintWidth
              [⟨[(178, 0), (180, 0), (180, 1), (178, 1), (178, 0)], []⟩,
               ⟨[(-180, 0), (-178, 0), (-178, 1), (-180, 1), (-180, 0)], []⟩]
          then specFootprintCandidate
              [⟨[(178, 0), (180, 0), (180, 1), (178, 1), (178, 0)], []⟩,
               ⟨[(-180, 0), (-178, 0), (-178, 1), (-180, 1), (-180, 0)], []⟩]
          else
            [⟨[(178, 0), (180, 0), (180, 1), (178, 1), (178, 0)], []⟩,
             ⟨[(-180, 0), (-178, 0), (-178, 1), (-180, 1), (-180, 0)], []⟩]) :=
  wrap_polygons_characterization _ false (by decide) (by decide)

/-! ### Hole alignment -/

theorem foldl_min_shift (l : List Coord) (x : ℚ) : ∀ a : ℚ,
    (ringShift x l).foldl (fun a c => if c.1 < a then c.1 else a) (a + x) =
      l.foldl (fun a c => if c.1 < a then c.1 else a) a + x := by
  induction l with
  | nil => intro a; rfl
  | cons c l ih =>
    intro a
    rw [ringShift, List.map_cons, List.foldl_cons, List.foldl_cons]
    simp only []
    have hcond : (c.1 + x < a + x) ↔ (c.1 < a) := add_lt_add_iff_right x
    by_cases hc : c.1 < a
    · rw [if_pos (hcond.mpr hc), if_pos hc]
      exact ih c.1
    · rw [if_neg (fun hh => hc (hcond.mp hh)), if_neg hc]
      exact ih a

theorem foldl_max_shift (l : List Coord) (x : ℚ) : ∀ a : ℚ,
    (ringShift x l).foldl (fun a c => if a < c.1 then c.1 else a) (a + x) =
      l.foldl (fun a c => if a < c.1 then c.1 else a) a + x := by
  induction l with
  | nil => intro a; rfl
  | cons c l ih =>
    intro a
    rw [ringShift, List.map_cons, List.foldl_cons, List.foldl_cons]
    simp only []
    have hcond : (a + x < c.1 + x) ↔ (a < c.1) := add_lt_add_iff_right x
    by_cases hc : a < c.1
    · rw [if_pos (hcond.mpr hc), if_pos hc]
      exact ih c.1
    · rw [if_neg (fun hh => hc (hcond.mp hh)), if_neg hc]
      exact ih a

theorem ringShift_minX (r : LinearRing) (hne : r ≠ []) (x : ℚ) :
    ringMinX (ringShift x r) = ringMinX r + x := by
  match r, hne with
  | c :: rest, _ =>
    rw [ringShift, List.map_cons]
    show List.foldl _ (c.1 + x) (ringShift x rest) = _
    rw [foldl_min_shift rest x c.1]
    rfl

theorem ringShift_maxX (r : LinearRing) (hne : r ≠ []) (x : ℚ) :
    ringMaxX (ringShift x r) = ringMaxX r + x := by
  match r, hne with
  | c :: rest, _ =>
    rw [ringShift, List.map_cons]
    show List.foldl _ (c.1 + x) (ringShift x rest) = _
    rw [foldl_max_shift rest x c.1]
    rfl

/-- C6 (amended with the containment proviso the counterexample forces): for
every hole ring whose bounds fit the shell bounds after a shift of -360, 0 or
+360, the aligned hole's bounding box lies within the shell's bounding box. -/
theorem hole_alignment_containment (smin smax : ℚ) (r : LinearRing)
    (hne : r ≠ [])
    (hcont : (smin ≤ ringMinX r ∧ ringMaxX r ≤ smax) ∨
      (smin ≤ ringMinX r + 360 ∧ ringMaxX r + 360 ≤ smax) ∨
      (smin ≤ ringMinX r - 360 ∧ ringMaxX r - 360 ≤ smax)) :
    smin ≤ ringMinX (alignRing smin smax (ringMinX r) (ringMaxX r) r).1 ∧
    ringMaxX (alignRing smin smax (ringMinX r) (ringMaxX r) r).1 ≤ smax := by
  unfold alignRing
  by_cases h1 : ringMinX r < smin
  · rw [if_pos h1]
    simp only []
    rw [ringShift_minX r hne, ringShift_maxX r hne]
    rcases hcont with ⟨a, b⟩ | ⟨a, b⟩ | ⟨a, b⟩
    · constructor <;> linarith
    · exact ⟨a, b⟩
    · constructor <;> linarith
  · rw [if_neg h1]
    by_cases h2 : smax < ringMaxX r
    · rw [if_pos h2]
      simp only []
      rw [ringShift_minX r hne, ringShift_maxX r hne]
      rcases hcont with ⟨a, b⟩ | ⟨a, b⟩ | ⟨a, b⟩
      · constructor <;> linarith
      · constructor <;> linarith
      · exact ⟨a, b⟩
    · rw [if_neg h2]
      exact ⟨not_lt.mp h1, not_lt.mp h2⟩

/-- Witness for C6: a hole already nested in the shell bounds is left
unchanged and stays nested. -/
theorem hole_alignment_containment_witness :
    (0 : ℚ) ≤ ringMinX (alignRing 0 10
        (ringMinX [(5, 1), (8, 1), (8, 2), (5, 2), (5, 1)])
        (ringMaxX [(5, 1), (8, 1), (8, 2), (5, 2), (5, 1)])
        [(5, 1), (8, 1), (8, 2), (5, 2), (5, 1)]).1 ∧
    ringMaxX (alignRing 0 10
        (ringMinX [(5, 1), (8, 1), (8, 2), (5, 2), (5, 1)])
        (ringMaxX [(5, 1), (8, 1), (8, 2), (5, 2), (5, 1)])
        [(5, 1), (8, 1), (8, 2), (5, 2), (5, 1)]).1 ≤ 10 :=
  hole_alignment_containment 0 10 [(5, 1), (8, 1), (8, 2), (5, 2), (5, 1)]
    (by decide) (Or.inl (by decide))

/-- Counterexample to C6 as stated: a hole reaching left of the shell is
shifted +360 and its box then lies entirely outside the shell's box. -/
theorem hole_alignment_containment_cex :
    processRingsAux false
        [[(0, 0), (10, 0), (10, 10), (0, 10), (0, 0)],
         [(-5, 1), (5, 1), (5, 2), (-5, 2), (-5, 1)]] true none false false =
      .ok ([[(0, 0), (10, 0), (10, 10), (0, 10), (0, 0)],
            [(355, 1), (365, 1), (365, 2), (355, 2), (355, 1)]],
        some (0, 10), false, false) ∧
    ringMaxX [(355, 1), (365, 1), (365, 2), (355, 2), (355, 1)] = 365 ∧
    decide ((365 : ℚ) ≤ 10) = false :=
  ⟨by decide, by decide, by decide⟩

/-! ### The dispatcher on unrecognized tags -/

/-- C8: on an input that is neither a polygon nor a multipolygon the
dispatcher of the reference crashes on its uninitialized result variable; it
does not raise the explicit InvalidInput failure the design demands. -/
theorem dispatcher_unrecognized_tag :
    (∀ verbose : Bool, splitter Geometry.other verbose = .error .pythonCrash) ∧
    (∀ verbose : Bool, ¬splitter Geometry.other verbose = .error .invalidInput) := by
  constructor
  · intro v; rfl
  · intro v h
    have h2 : Err.pythonCrash = Err.invalidInput := Except.error.inj h
    exact absurd h2 (by decide)

/-! ### The validation error is unreachable without the validate flag -/

theorem check_crossing_false_ok (l1 l2 t : ℚ) :
    check_crossing l1 l2 false t = .ok (decide (t < |l2 - l1|)) := by
  unfold check_crossing
  rw [if_neg]
  rintro ⟨h, _⟩
  exact Bool.false_ne_true h

theorem unwrapFrom_false_err (rest : List Coord) :
    ∀ (prev mn mx : ℚ) (cr : Nat) (e : Err),
      unwrapFrom false prev mn mx cr rest ≠ .error e := by
  induction rest with
  | nil => intro prev mn mx cr e h; exact Except.noConfusion h
  | cons c rest ih =>
    intro prev mn mx cr e h
    obtain ⟨lon, lat⟩ := c
    rw [unwrapFrom, check_crossing_false_ok] at h
    rcases bind_eq_error h with h1 | ⟨a, _, h2⟩
    · exact Except.noConfusion h1
    · rcases bind_eq_error h2 with h3 | ⟨b, _, h4⟩
      · exact ih _ _ _ _ _ h3
      · exact Except.noConfusion h4

theorem normalizeRing_false_err (r : LinearRing) :
    ∀ e : Err, normalizeRing false r ≠ .error e := by
  match r with
  | [] => intro e h; exact Except.noConfusion h
  | (x0, y0) :: rest =>
    intro e h
    rw [normalizeRing] at h
    rcases bind_eq_error h with h1 | ⟨a, _, h2⟩
    · exact unwrapFrom_false_err rest x0 x0 x0 0 _ h1
    · exact Except.noConfusion h2

theorem processRingsAux_false_err (rings : List LinearRing) :
    ∀ (first : Bool) (sb : Option (ℚ × ℚ)) (mNeg mPos : Bool) (e : Err),
      processRingsAux false rings first sb mNeg mPos = .error e → e = .pythonCrash := by
  induction rings with
  | nil => intro first sb mNeg mPos e h; exact Except.noConfusion h
  | cons r rest ih =>
    intro first sb mNeg mPos e h
    rw [processRingsAux] at h
    split_ifs at h with hre hfirst
    · rcases bind_eq_error h with h1 | ⟨a, _, h2⟩
      · exact ih _ _ _ _ _ h1
      · exact Except.noConfusion h2
    · rcases bind_eq_error h with h1 | ⟨nr, _, h2⟩
      · exact absurd h1 (normalizeRing_false_err r _)
      · rcases bind_eq_error h2 with h3 | ⟨al, _, h4⟩
        · exact Except.noConfusion h3
        · rcases bind_eq_error h4 with h5 | ⟨out, _, h6⟩
          · exact ih _ _ _ _ _ h5
          · exact Except.noConfusion h6
    · rcases bind_eq_error h with h1 | ⟨nr, _, h2⟩
      · exact absurd h1 (normalizeRing_false_err r _)
      · rcases sb with _ | s
        · rcases bind_eq_error h2 with h3 | ⟨al, hal, h4⟩
          · exact (Except.error.inj h3).symm
          · exact Except.noConfusion hal
        · obtain ⟨smin, smax⟩ := s
          rcases bind_eq_error h2 with h3 | ⟨al, _, h4⟩
          · exact Except.noConfusion h3
          · rcases bind_eq_error h4 with h5 | ⟨out, _, h6⟩
            · exact ih _ _ _ _ _ h5
            · exact Except.noConfusion h6

theorem translate_polygon_err (p : SPolygon) (e : Err)
    (h : translate_polygon p = .error e) : e = .pythonCrash := by
  unfold translate_polygon at h
  split_ifs at h
  · exact (Except.error.inj h).symm
  all_goals exact Except.noConfusion h

theorem translate_polygons_err (gc : SMultiPolygon) :
    ∀ e : Err, translate_polygons gc = .error e → e = .pythonCrash := by
  induction gc with
  | nil => intro e h; exact Except.noConfusion h
  | cons p rest ih =>
    intro e h
    rw [translate_polygons] at h
    rcases bind_eq_error h with h1 | ⟨a, _, h2⟩
    · exact translate_polygon_err p _ h1
    · rcases bind_eq_error h2 with h3 | ⟨b, _, h4⟩
      · exact ih _ h3
      · exact Except.noConfusion h4

theorem split_polygon_false_err (p : SPolygon) (e : Err)
    (h : split_polygon p false = .error e) :
    e = .pythonCrash ∨ e = .unsupportedTopology := by
  rw [split_polygon] at h
  rcases bind_eq_error h with h1 | ⟨res, _, h2⟩
  · exact Or.inl (processRingsAux_false_err _ _ _ _ _ _ h1)
  · obtain ⟨rs2, sb2, mNeg2, mPos2⟩ := res
    cases mNeg2 <;> cases mPos2
    · exact Or.inl (translate_polygons_err _ _ h2)
    · exact Or.inl (translate_polygons_err _ _ h2)
    · exact Or.inl (translate_polygons_err _ _ h2)
    · exact Or.inr (Except.error.inj h2).symm

theorem split_multipolygon_err (mp : SMultiPolygon) :
    ∀ e : Err, split_multipolygon mp = .error e →
      e = .pythonCrash ∨ e = .unsupportedTopology := by
  induction mp with
  | nil => intro e h; exact Except.noConfusion h
  | cons p rest ih =>
    intro e h
    rw [split_multipolygon] at h
    rcases bind_eq_error h with h1 | ⟨a, _, h2⟩
    · exact split_polygon_false_err p _ h1
    · rcases bind_eq_error h2 with h3 | ⟨b, _, h4⟩
      · exact ih _ h3
      · exact Except.noConfusion h4

theorem wrap_polygons_err (gc : SMultiPolygon) (verbose : Bool) (e : Err)
    (h : wrap_polygons gc verbose = .error e) : e = .pythonCrash := by
  unfold wrap_polygons at h
  split_ifs at h
  · exact (Except.error.inj h).symm
  · rcases ite_eq_iff.mp h with ⟨_, h2⟩ | ⟨_, h2⟩ <;> exact Except.noConfusion h2

/-- C9: longitude-domain validation is unreachable through the multipolygon
and dispatcher entry points: the per-polygon split is always invoked with
validate at its default false, the dispatcher exposes no validate parameter,
and neither entry point can fail with the longitude validation error. -/
theorem validation_unreachable :
    (∀ mp : SMultiPolygon, ¬split_multipolygon mp = .error .invalidLongitude) ∧
    (∀ (g : Geometry) (verbose : Bool),
      ¬splitter g verbose = .error .invalidLongitude) := by
  have hsm : ∀ mp : SMultiPolygon, ¬split_multipolygon mp = .error .invalidLongitude := by
    intro mp h
    rcases split_multipolygon_err mp _ h with h2 | h2 <;> exact Err.noConfusion h2
  refine ⟨hsm, ?_⟩
  intro g verbose h
  match g with
  | .multi mp =>
    rw [splitter] at h
    rcases bind_eq_error h with h1 | ⟨s, _, h2⟩
    · exact hsm mp h1
    · exact absurd (wrap_polygons_err s verbose _ h2) (by decide)
  | .poly p =>
    rw [splitter] at h
    rcases bind_eq_error h with h1 | ⟨s, _, h2⟩
    · rcases split_polygon_false_err p _ h1 with h3 | h3 <;> exact Err.noConfusion h3
    · exact absurd (wrap_polygons_err s verbose _ h2) (by decide)
  | .other =>
    exact absurd (Except.error.inj h) (by decide)

/-! ### Idempotence of the pipeline on normal fragment collections -/

theorem smallStepsB_shift (l : List Coord) (x : ℚ) :
    ∀ prev : ℚ, smallStepsB prev l = true → smallStepsB (prev + x) (ringShift x l) = true := by
  induction l with
  | nil => intro prev _; rfl
  | cons c rest ih =>
    intro prev h
    rw [smallStepsB, Bool.and_eq_true, decide_eq_true_eq] at h
    show smallStepsB (prev + x) ((c.1 + x, c.2) :: ringShift x rest) = true
    rw [smallStepsB, Bool.and_eq_true, decide_eq_true_eq]
    refine ⟨?_, ih c.1 h.2⟩
    show |c.1 + x - (prev + x)| ≤ 180
    have h2 : c.1 + x - (prev + x) = c.1 - prev := by ring
    rw [h2]
    exact h.1

theorem smallRingB_shift (r : LinearRing) (x : ℚ) (h : smallRingB r = true) :
    smallRingB (ringShift x r) = true := by
  match r with
  | [] => rfl
  | c :: rest =>
    rw [smallRingB] at h
    show smallRingB ((c.1 + x, c.2) :: ringShift x rest) = true
    rw [smallRingB]
    exact smallStepsB_shift rest x c.1 h

theorem smallPolyB_shift (p : SPolygon) (x : ℚ) (h : smallPolyB p = true) :
    smallPolyB (polyShift x p) = true := by
  rw [smallPolyB, List.all_cons, Bool.and_eq_true, List.all_eq_true] at h
  rw [smallPolyB, List.all_cons, Bool.and_eq_true]
  refine ⟨smallRingB_shift p.shell x h.1, ?_⟩
  rw [List.all_eq_true]
  intro r hr
  simp only [polyShift] at hr
  rcases List.mem_map.mp hr with ⟨r0, hr0, rfl⟩
  exact smallRingB_shift r0 x (h.2 r0 hr0)

theorem ringShift_cancel (r : LinearRing) : ringShift (-360) (ringShift 360 r) = r := by
  induction r with
  | nil => rfl
  | cons c rest ih =>
    show (c.1 + 360 + -360, c.2) :: ringShift (-360) (ringShift 360 rest) = c :: rest
    rw [ih, add_neg_cancel_right]

theorem polyShift_cancel (p : SPolygon) : polyShift (-360) (polyShift 360 p) = p := by
  have hh : ∀ l : List LinearRing,
      List.map (ringShift (-360)) (List.map (ringShift 360) l) = l := by
    intro l
    induction l with
    | nil => rfl
    | cons r rest ih => rw [List.map_cons, List.map_cons, ringShift_cancel, ih]
  show SPolygon.mk (ringShift (-360) (ringShift 360 p.shell))
      (List.map (ringShift (-360)) (List.map (ringShift 360) p.holes)) = p
  rw [ringShift_cancel, hh]

theorem translate_polygon_down (p : SPolygon) (hsh : p.shell ≠ [])
    (hmin : ¬(ringMinX p.shell < -180)) (hmax : 180 < ringMaxX p.shell) :
    translate_polygon p = .ok (polyShift (-360) p) := by
  unfold translate_polygon
  rw [if_neg (by simp [List.isEmpty_eq_true, hsh]), if_neg hmin, if_pos hmax]

/-- The split is a right inverse of the +360 wrap shift: a shifted normal
fragment is unwrapped back to itself by the next pipeline run. -/
theorem split_polygon_shifted (p : SPolygon)
    (hsh : p.shell ≠ [])
    (hs : smallPolyB p = true)
    (hmin : -180 ≤ ringMinX p.shell)
    (hmax : -180 < ringMaxX p.shell) :
    split_polygon (polyShift 360 p) false = .ok [p] := by
  have hqsh : (polyShift 360 p).shell ≠ [] := by
    simp only [polyShift, ringShift, Ne, List.map_eq_nil]
    exact hsh
  have hqs : smallPolyB (polyShift 360 p) = true := smallPolyB_shift p 360 hs
  have hq1 : ringMinX (polyShift 360 p).shell = ringMinX p.shell + 360 :=
    ringShift_minX p.shell hsh 360
  have hq2 : ringMaxX (polyShift 360 p).shell = ringMaxX p.shell + 360 :=
    ringShift_maxX p.shell hsh 360
  obtain ⟨out, hout⟩ := processRingsAux_shell_small false (polyShift 360 p) hqsh hqs
    (fun hvt => Bool.noConfusion hvt)
  unfold split_polygon
  rw [hout]
  simp only [Except.bind, Bool.and_false, Bool.or_false, Bool.false_eq_true, reduceIte]
  show translate_polygons [polyShift 360 p] = .ok [p]
  unfold translate_polygons
  rw [translate_polygon_down (polyShift 360 p) hqsh
    (by rw [hq1]; intro hcon; linarith) (by rw [hq2]; linarith)]
  show Except.ok [polyShift (-360) (polyShift 360 p)] = .ok [p]
  rw [polyShift_cancel]

/-- A pipeline-normal fragment: nonempty well-formed rings, coordinates in
range, small consecutive steps, and not degenerate at exactly -180. -/
def normalB (p : SPolygon) : Bool :=
  (!p.shell.isEmpty) && wfPolyB p && smallPolyB p && inRangePolyB p &&
    (decide (0 ≤ ringMinX p.shell) || decide (-180 < ringMaxX p.shell))

theorem normalB_parts (p : SPolygon) (h : normalB p = true) :
    p.shell ≠ [] ∧ smallPolyB p = true ∧ inRangePolyB p = true ∧
      (0 ≤ ringMinX p.shell ∨ -180 < ringMaxX p.shell) := by
  rw [normalB] at h
  simp only [Bool.and_eq_true, Bool.or_eq_true, Bool.not_eq_true',
    decide_eq_true_eq] at h
  obtain ⟨⟨⟨⟨hsh, _⟩, hs⟩, hr⟩, hlast⟩ := h
  rw [List.isEmpty_eq_false] at hsh
  exact ⟨hsh, hs, hr, hlast⟩

theorem split_multipolygon_id (m : SMultiPolygon)
    (hn : ∀ p ∈ m, normalB p = true) :
    split_multipolygon m = .ok m := by
  induction m with
  | nil => rfl
  | cons p rest ih =>
    obtain ⟨hsh, hs, hr, _⟩ := normalB_parts p (hn p (List.mem_cons_self p rest))
    have hsr : inRangeRingB p.shell = true := by
      rw [inRangePolyB, List.all_cons, Bool.and_eq_true] at hr
      exact hr.1
    obtain ⟨hmin, hmax⟩ := inRange_bounds p.shell hsr
    rw [split_multipolygon,
      split_polygon_id p false hsh hs (fun hvt => Bool.noConfusion hvt) hmin hmax,
      ih (fun q hq => hn q (List.mem_cons_of_mem p hq))]
    rfl

theorem split_multipolygon_candidate (m : SMultiPolygon)
    (hn : ∀ p ∈ m, normalB p = true) :
    split_multipolygon
        (m.map (fun p => if ringMinX p.shell < 0 then polyShift 360 p else p)) =
      .ok m := by
  induction m with
  | nil => rfl
  | cons p rest ih =>
    obtain ⟨hsh, hs, hr, hlast⟩ := normalB_parts p (hn p (List.mem_cons_self p rest))
    have hsr : inRangeRingB p.shell = true := by
      rw [inRangePolyB, List.all_cons, Bool.and_eq_true] at hr
      exact hr.1
    obtain ⟨hmin, hmax⟩ := inRange_bounds p.shell hsr
    have hrest := ih (fun q hq => hn q (List.mem_cons_of_mem p hq))
    rw [List.map_cons, split_multipolygon]
    by_cases hneg : ringMinX p.shell < 0
    · have hmaxneg : -180 < ringMaxX p.shell := by
        rcases hlast with h | h
        · linarith
        · exact h
      rw [if_pos hneg, split_polygon_shifted p hsh hs hmin hmaxneg, hrest]
      rfl
    · rw [if_neg hneg,
        split_polygon_id p false hsh hs (fun hvt => Bool.noConfusion hvt) hmin hmax,
        hrest]
      rfl

theorem wrap_polygons_ok_cases (gc y : SMultiPolygon) (verbose : Bool)
    (h : wrap_polygons gc verbose = .ok y) :
    y = gc.map (fun p => if ringMinX p.shell < 0 then polyShift 360 p else p) ∨ y = gc := by
  unfold wrap_polygons at h
  split_ifs at h
  rcases ite_eq_iff.mp h with ⟨_, h2⟩ | ⟨_, h2⟩
  · exact Or.inl (Except.ok.inj h2).symm
  · exact Or.inr (Except.ok.inj h2).symm

/-- C7 (amended with the normality proviso the counterexample forces): for
every already-split collection of normal fragments, re-running the full
pipeline on the footprint-optimized result returns it unchanged. -/
theorem pipeline_fixed_point (m y : SMultiPolygon) (verbose : Bool)
    (hn : ∀ p ∈ m, normalB p = true)
    (hw : wrap_polygons m verbose = .ok y) :
    splitter (.multi y) verbose = .ok y := by
  have hgoal : ∀ z, split_multipolygon z = .ok m → wrap_polygons m verbose = .ok z →
      splitter (.multi z) verbose = .ok z := by
    intro z hz hwz
    show Except.bind (split_multipolygon z) (fun s => wrap_polygons s verbose) = .ok z
    rw [hz]
    exact hwz
  rcases wrap_polygons_ok_cases m y verbose hw with hy | hy
  · refine hgoal y ?_ hw
    rw [hy]
    exact split_multipolygon_candidate m hn
  · refine hgoal y ?_ hw
    rw [hy]
    exact split_multipolygon_id m hn

/-- Witness for C7: a mixed-sign two-fragment collection whose optimized form
is reproduced exactly by a second pipeline run. -/
theorem pipeline_fixed_point_witness :
    splitter (.multi
        [⟨[(190, 0), (200, 0), (200, 1), (190, 1), (190, 0)], []⟩,
         ⟨[(170, 0), (175, 0), (175, 1), (170, 1), (170, 0)], []⟩]) false =
      .ok [⟨[(190, 0), (200, 0), (200, 1), (190, 1), (190, 0)], []⟩,
           ⟨[(170, 0), (175, 0), (175, 1), (170, 1), (170, 0)], []⟩] :=
  pipeline_fixed_point
    [⟨[(-170, 0), (-160, 0), (-160, 1), (-170, 1), (-170, 0)], []⟩,
     ⟨[(170, 0), (175, 0), (175, 1), (170, 1), (170, 0)], []⟩] _ false
    (by decide) (by decide)

/-- Counterexample to C7 as stated: on the out-of-range rectangle from 0 to
181 the pipeline succeeds, but a second run on its output returns a different
collection, so the pipeline is not idempotent on every input it accepts. -/
theorem pipeline_fixed_point_cex :
    splitter (.poly ⟨[(0, 0), (181, 0), (181, 1), (0, 1), (0, 0)], []⟩) false =
      .ok [⟨[(-360, 0), (-179, 0), (-179, 1), (-360, 1), (-360, 0)], []⟩] ∧
    splitter (.multi [⟨[(-360, 0), (-179, 0), (-179, 1), (-360, 1), (-360, 0)], []⟩])
        false =
      .ok [⟨[(0, 0), (-179, 0), (-179, 1), (0, 1), (0, 0)], []⟩] ∧
    decide (([⟨[(0, 0), (-179, 0), (-179, 1), (0, 1), (0, 0)], []⟩] : SMultiPolygon) =
      [⟨[(-360, 0), (-179, 0), (-179, 1), (-360, 1), (-360, 0)], []⟩]) = false :=
  ⟨by decide, by decide, by decide⟩

end SplitPolygons
